import Mathlib

/-!
# Verification of the vortex client runtime

A shallow embedding of the core of the `westacks/vortex` client runtime:
the signal/effect graph (`src/signals.ts`), the JS deep-equality and
deep-merge helpers, the inertia navigation extension (history state,
response reconciliation, error handling), the prefetch cache decision
logic (`src/prefetch.ts`) and the form engine (`useForm`).

JavaScript objects are modelled as association lists of string keys;
mutation becomes explicit state passing.  The single-threaded event-loop
semantics of the source is modelled by running each operation to
completion (sequential semantics); interleavings of suspended `async`
continuations are out of scope.
-/

set_option maxHeartbeats 1000000

namespace Vortex

/-! ## Association-list maps

JS objects and `Map`s are modelled as association lists.  `getA` is
property lookup (first matching key), `setA` is property assignment
(replace in place, or append when the key is new — matching JS key
ordering of object literals and `Map.set`), `assignAll` is
`Object.assign` / object spread `{...base, ...upd}`. -/

def getA {κ α : Type} [DecidableEq κ] : List (κ × α) → κ → Option α
  | [], _ => none
  | (k', v) :: rest, k => if k' = k then some v else getA rest k

def getD {κ α : Type} [DecidableEq κ] (l : List (κ × α)) (k : κ) (d : α) : α :=
  (getA l k).getD d

def setA {κ α : Type} [DecidableEq κ] : List (κ × α) → κ → α → List (κ × α)
  | [], k, v => [(k, v)]
  | (k', v') :: rest, k, v =>
    if k' = k then (k, v) :: rest else (k', v') :: setA rest k v

def assignAll {κ α : Type} [DecidableEq κ] (base upd : List (κ × α)) : List (κ × α) :=
  upd.foldl (fun acc p => setA acc p.1 p.2) base

def delA {κ α : Type} [DecidableEq κ] : List (κ × α) → κ → List (κ × α)
  | [], _ => []
  | (k', v') :: rest, k => if k' = k then rest else (k', v') :: delA rest k

@[simp] theorem getA_nil {κ α : Type} [DecidableEq κ] (k : κ) :
    getA ([] : List (κ × α)) k = none := rfl

@[simp] theorem getA_cons {κ α : Type} [DecidableEq κ] (k' k : κ) (v : α) (rest : List (κ × α)) :
    getA ((k', v) :: rest) k = if k' = k then some v else getA rest k := rfl

theorem getA_setA_self {κ α : Type} [DecidableEq κ] (l : List (κ × α)) (k : κ) (v : α) :
    getA (setA l k v) k = some v := by
  induction l with
  | nil => simp [setA]
  | cons p rest ih =>
    obtain ⟨k', v'⟩ := p
    by_cases h : k' = k <;> simp [setA, h, ih]

theorem getA_setA_ne {κ α : Type} [DecidableEq κ] (l : List (κ × α)) (k k' : κ) (v : α)
    (h : k ≠ k') : getA (setA l k v) k' = getA l k' := by
  induction l with
  | nil => simp [setA, getA, h]
  | cons p rest ih =>
    obtain ⟨k₀, v₀⟩ := p
    by_cases h₀ : k₀ = k
    · subst h₀; simp [setA, getA, h]
    · simp [setA, h₀, getA, ih]

@[simp] theorem assignAll_nil {κ α : Type} [DecidableEq κ] (base : List (κ × α)) :
    assignAll base [] = base := rfl

@[simp] theorem assignAll_cons {κ α : Type} [DecidableEq κ] (base rest : List (κ × α))
    (k : κ) (v : α) : assignAll base ((k, v) :: rest) = assignAll (setA base k v) rest := rfl

theorem getA_assignAll_not_mem {κ α : Type} [DecidableEq κ] (upd base : List (κ × α)) (k : κ)
    (h : k ∉ upd.map Prod.fst) : getA (assignAll base upd) k = getA base k := by
  induction upd generalizing base with
  | nil => simp
  | cons p rest ih =>
    obtain ⟨k₀, v₀⟩ := p
    simp only [List.map_cons, List.mem_cons] at h
    push_neg at h
    rw [assignAll_cons, ih (setA base k₀ v₀) h.2,
      getA_setA_ne _ _ _ _ (fun hh => h.1 hh.symm)]

theorem getA_assignAll_mem {κ α : Type} [DecidableEq κ] (upd base : List (κ × α)) (k : κ)
    (hnd : (upd.map Prod.fst).Nodup)
    (h : k ∈ upd.map Prod.fst) : getA (assignAll base upd) k = getA upd k := by
  induction upd generalizing base with
  | nil => simp at h
  | cons p rest ih =>
    obtain ⟨k₀, v₀⟩ := p
    simp only [List.map_cons, List.nodup_cons] at hnd
    by_cases hk : k₀ = k
    · subst hk
      have hmem : k₀ ∉ rest.map Prod.fst := hnd.1
      rw [assignAll_cons, getA_assignAll_not_mem _ _ _ hmem, getA_setA_self]
      simp [getA]
    · simp only [List.map_cons, List.mem_cons] at h
      rcases h with h | h
      · exact absurd h.symm hk
      · rw [assignAll_cons, ih _ hnd.2 h]
        simp [getA, hk]

/-! ## Signal graph (`src/signals.ts`)

The runtime keeps one module-level `observer` (the effect instance being
evaluated).  Each signal owns a `subscribers : Set<EffectInstance>`;
each effect owns a `subscribers : Set<EffectLink>` of the unlink
closures of the signals it last read (one closure per signal, so the set
is a set of signal ids), an optional cleanup returned by its body, and
is re-run by `notify`.  The world holds every signal and effect,
identified by `Nat` ids; values are `Nat` (any value type would do —
the default equality predicate `(a, b) => a === b` is value equality on
primitives).  `cleanupRuns` instruments how many times an effect's
cleanup (`flush`) has been invoked.  `dispose` (an `async` function in
the source) is modelled as running to completion before control
returns: the single-threaded sequential semantics. -/

abbrev SigId := Nat
abbrev EffId := Nat

/-- An effect body: a finite tree of signal reads ending in `ret`;
`hasCleanup` is whether the body returns a destructor function. -/
inductive Body where
  | ret (hasCleanup : Bool)
  | read (s : SigId) (k : Nat → Body)

/-- The mutable state of the signal/effect module. -/
structure SWorld where
  sigVal : List (SigId × Nat)
  sigSubs : List (SigId × List EffId)
  effDeps : List (EffId × List SigId)
  effCleaner : List (EffId × Bool)
  cleanupRuns : List (EffId × Nat)
  observer : Option EffId
deriving DecidableEq, Repr

/-- `get()` of a signal: return the state and, when an observer is
active and not yet subscribed, add it to the signal's subscribers and
hand it the signal's `unlink` (record the signal in the effect's
dependency set). -/
def sigGet (w : SWorld) (s : SigId) : SWorld × Nat :=
  let v := getD w.sigVal s 0
  match w.observer with
  | none => (w, v)
  | some e =>
    let subs := getD w.sigSubs s []
    if e ∈ subs then (w, v)
    else
      let deps := getD w.effDeps e []
      ({ w with
          sigSubs := setA w.sigSubs s (subs ++ [e])
          effDeps := setA w.effDeps e (if s ∈ deps then deps else deps ++ [s]) }, v)

/-- Run an effect body, performing its reads; returns whether the body
produced a cleanup function. -/
def runBody (w : SWorld) (b : Body) : SWorld × Bool :=
  match b with
  | .ret c => (w, c)
  | .read s k =>
    let (w', v) := sigGet w s
    runBody w' (k v)

/-- The synchronous prefix of the `async` `dispose()` of an effect, up
to and including the evaluation of `cleaner` at `const flush = await
cleaner`: call every recorded `unlink` (removing the effect from those
signals' subscriber sets), clear the dependency set, and capture the
current `cleaner`.  The `await` then suspends; the rest of the function
runs later as a microtask (`disposeResume`). -/
def disposeSync (w : SWorld) (e : EffId) : SWorld × Bool :=
  let deps := getD w.effDeps e []
  let w₁ := deps.foldl
    (fun w s => { w with sigSubs := setA w.sigSubs s ((getD w.sigSubs s []).filter (· ≠ e)) }) w
  let w₂ := { w₁ with effDeps := setA w₁.effDeps e [] }
  (w₂, getD w₂.effCleaner e false)

/-- The continuation of `dispose()` after the `await cleaner`
suspension: invoke the captured cleanup if it is a function, then set
`cleaner = undefined`. -/
def disposeResume (w : SWorld) (e : EffId) (flush : Bool) : SWorld :=
  if flush then
    { w with
        effCleaner := setA w.effCleaner e false
        cleanupRuns := setA w.cleanupRuns e (getD w.cleanupRuns e 0 + 1) }
  else
    { w with effCleaner := setA w.effCleaner e false }

/-- A `dispose()` call that runs to completion before anything else
observes the world: the synchronous prefix immediately followed by its
continuation. -/
def dispose (w : SWorld) (e : EffId) : SWorld :=
  let r := disposeSync w e
  disposeResume r.1 e r.2

/-- Two back-to-back synchronous `dispose()` calls: both synchronous
prefixes run (each capturing `cleaner` at its `await`), and only then
do the two suspended continuations run, in call order — the microtask
interleaving the event loop produces when a disposer is invoked twice
in the same task. -/
def disposeTwiceRace (w : SWorld) (e : EffId) : SWorld :=
  let r₁ := disposeSync w e
  let r₂ := disposeSync r₁.1 e
  let w₃ := disposeResume r₂.1 e r₁.2
  disposeResume w₃ e r₂.2

/-- `notify()` of an effect: dispose, install the effect as the current
observer, run the body (storing its returned cleanup), restore the
observer to `null`.  `bodies` maps effect ids to their bodies. -/
def notify (bodies : EffId → Body) (w : SWorld) (e : EffId) : SWorld :=
  let w₁ := dispose w e
  let w₂ := { w₁ with observer := some e }
  let (w₃, c) := runBody w₂ (bodies e)
  { w₃ with effCleaner := setA w₃.effCleaner e c, observer := none }

/-- `effect(fn)`: runs `notify()` once (registering initial
dependencies) and returns the disposer. -/
def createEffect (bodies : EffId → Body) (w : SWorld) (e : EffId) : SWorld :=
  notify bodies w e

/-- `set(value | updater, force)` of a signal: compute the next value
(applying an updater if given), return unchanged unless `force` or the
equality predicate rejects, else store and synchronously notify a
snapshot (`[...subscribers]`) of the subscriber set.  `eqs` gives each
signal's `equals` predicate; the returned list logs the dependents
notified by this call, in order. -/
def computeNext (value : Nat ⊕ (Nat → Nat)) (cur : Nat) : Nat :=
  match value with | .inl v => v | .inr f => f cur

def setSignal (eqs : SigId → Nat → Nat → Bool) (bodies : EffId → Body) (w : SWorld)
    (s : SigId) (value : Nat ⊕ (Nat → Nat)) (force : Bool) : SWorld × List EffId :=
  let cur := getD w.sigVal s 0
  let next := computeNext value cur
  if !force && eqs s cur next then (w, [])
  else
    let w₁ := { w with sigVal := setA w.sigVal s next }
    let subs := getD w₁.sigSubs s []
    subs.foldl (fun p e => (notify bodies p.1 e, p.2 ++ [e])) (w₁, [])

/-- The default equality predicate `(a, b) => a === b`. -/
def defaultEq : SigId → Nat → Nat → Bool := fun _ a b => a == b

theorem setA_self_of_getA {κ α : Type} [DecidableEq κ] (l : List (κ × α)) (k : κ) (v : α)
    (h : getA l k = some v) : setA l k v = l := by
  induction l with
  | nil => simp at h
  | cons p rest ih =>
    obtain ⟨k₀, v₀⟩ := p
    by_cases hk : k₀ = k
    · subst hk
      have h' : v₀ = v := by simpa [getA] using h
      subst h'
      simp [setA]
    · simp only [getA_cons, if_neg hk] at h
      simp [setA, hk, ih h]

theorem sigVal_sigGet (w : SWorld) (s : SigId) : (sigGet w s).1.sigVal = w.sigVal := by
  unfold sigGet
  rcases w.observer with _ | e <;> simp
  split <;> simp

theorem sigVal_runBody (b : Body) : ∀ w : SWorld, (runBody w b).1.sigVal = w.sigVal := by
  induction b with
  | ret c => intro w; rfl
  | read s k ih =>
    intro w
    rw [runBody]
    rw [ih _ (sigGet w s).1, sigVal_sigGet]

theorem sigVal_foldl {β : Type} (l : List β) (f : SWorld → β → SWorld)
    (hf : ∀ w b, (f w b).sigVal = w.sigVal) : ∀ w : SWorld, (l.foldl f w).sigVal = w.sigVal := by
  induction l with
  | nil => intro w; rfl
  | cons d rest ih => intro w; rw [List.foldl_cons, ih, hf]

theorem world_foldl_proj {α β : Type} (g : SWorld → α) (l : List β) (f : SWorld → β → SWorld)
    (hf : ∀ w b, g (f w b) = g w) : ∀ w : SWorld, g (l.foldl f w) = g w := by
  induction l with
  | nil => intro w; rfl
  | cons d rest ih => intro w; rw [List.foldl_cons, ih, hf]

theorem disposeSync_sigVal (w : SWorld) (e : EffId) : (disposeSync w e).1.sigVal = w.sigVal := by
  simp only [disposeSync]
  exact world_foldl_proj (fun w => w.sigVal) (getD w.effDeps e [])
    (fun w s => { w with sigSubs := setA w.sigSubs s ((getD w.sigSubs s []).filter (· ≠ e)) })
    (fun _ _ => rfl) w

theorem disposeSync_effCleaner (w : SWorld) (e : EffId) :
    (disposeSync w e).1.effCleaner = w.effCleaner := by
  simp only [disposeSync]
  exact world_foldl_proj (fun w => w.effCleaner) (getD w.effDeps e [])
    (fun w s => { w with sigSubs := setA w.sigSubs s ((getD w.sigSubs s []).filter (· ≠ e)) })
    (fun _ _ => rfl) w

theorem disposeSync_cleanupRuns (w : SWorld) (e : EffId) :
    (disposeSync w e).1.cleanupRuns = w.cleanupRuns := by
  simp only [disposeSync]
  exact world_foldl_proj (fun w => w.cleanupRuns) (getD w.effDeps e [])
    (fun w s => { w with sigSubs := setA w.sigSubs s ((getD w.sigSubs s []).filter (· ≠ e)) })
    (fun _ _ => rfl) w

theorem disposeSync_effDeps_getA (w : SWorld) (e : EffId) :
    getA (disposeSync w e).1.effDeps e = some [] := by
  simp only [disposeSync]
  exact getA_setA_self _ _ _

/-- The value `dispose()` captures at `const flush = await cleaner` is
the effect's pending cleaner as of the call — the synchronous prefix
does not touch it. -/
theorem disposeSync_snd (w : SWorld) (e : EffId) :
    (disposeSync w e).2 = getD w.effCleaner e false := by
  have hp := world_foldl_proj (fun w => w.effCleaner) (getD w.effDeps e [])
    (fun w s => { w with sigSubs := setA w.sigSubs s ((getD w.sigSubs s []).filter (· ≠ e)) })
    (fun _ _ => rfl) w
  simp only [disposeSync]
  rw [hp]

theorem disposeResume_sigVal (w : SWorld) (e : EffId) (fl : Bool) :
    (disposeResume w e fl).sigVal = w.sigVal := by
  simp only [disposeResume]
  split <;> rfl

theorem disposeResume_sigSubs (w : SWorld) (e : EffId) (fl : Bool) :
    (disposeResume w e fl).sigSubs = w.sigSubs := by
  simp only [disposeResume]
  split <;> rfl

theorem disposeResume_effDeps (w : SWorld) (e : EffId) (fl : Bool) :
    (disposeResume w e fl).effDeps = w.effDeps := by
  simp only [disposeResume]
  split <;> rfl

theorem disposeResume_effCleaner_getA (w : SWorld) (e : EffId) (fl : Bool) :
    getA (disposeResume w e fl).effCleaner e = some false := by
  simp only [disposeResume]
  split <;> (dsimp only; exact getA_setA_self _ _ _)

theorem disposeResume_cleanupRuns_true (w : SWorld) (e : EffId) :
    getD (disposeResume w e true).cleanupRuns e 0 = getD w.cleanupRuns e 0 + 1 := by
  simp [disposeResume, getD, getA_setA_self]

theorem sigVal_dispose (w : SWorld) (e : EffId) : (dispose w e).sigVal = w.sigVal := by
  simp only [dispose]
  rw [disposeResume_sigVal, disposeSync_sigVal]

theorem sigVal_notify (bodies : EffId → Body) (w : SWorld) (e : EffId) :
    (notify bodies w e).sigVal = w.sigVal := by
  unfold notify
  rw [sigVal_runBody, sigVal_dispose]

theorem notifyFold_log (bodies : EffId → Body) (subs : List EffId) :
    ∀ (w : SWorld) (acc : List EffId),
      (subs.foldl (fun p e => (notify bodies p.1 e, p.2 ++ [e])) (w, acc)).2 = acc ++ subs := by
  induction subs with
  | nil => intro w acc; simp
  | cons d rest ih => intro w acc; simp [ih]

theorem notifyFold_sigVal (bodies : EffId → Body) (subs : List EffId) :
    ∀ (w : SWorld) (acc : List EffId),
      (subs.foldl (fun p e => (notify bodies p.1 e, p.2 ++ [e])) (w, acc)).1.sigVal = w.sigVal := by
  induction subs with
  | nil => intro w acc; rfl
  | cons d rest ih => intro w acc; rw [List.foldl_cons, ih, sigVal_notify]

theorem setSignal_skip (eqs : SigId → Nat → Nat → Bool) (bodies : EffId → Body) (w : SWorld)
    (s : SigId) (value : Nat ⊕ (Nat → Nat))
    (h : eqs s (getD w.sigVal s 0) (computeNext value (getD w.sigVal s 0)) = true) :
    setSignal eqs bodies w s value false = (w, []) := by
  unfold setSignal
  simp [h]

theorem setSignal_notifies (eqs : SigId → Nat → Nat → Bool) (bodies : EffId → Body) (w : SWorld)
    (s : SigId) (value : Nat ⊕ (Nat → Nat)) (force : Bool)
    (h : ¬(!force && eqs s (getD w.sigVal s 0) (computeNext value (getD w.sigVal s 0))) = true) :
    (setSignal eqs bodies w s value force).2 = getD w.sigSubs s [] ∧
    getD (setSignal eqs bodies w s value force).1.sigVal s 0
      = computeNext value (getD w.sigVal s 0) := by
  unfold setSignal
  simp only [if_neg h]
  refine ⟨?_, ?_⟩
  · rw [notifyFold_log]; simp
  · rw [notifyFold_sigVal]
    simp [getD, getA_setA_self]

theorem dispose_effDeps_getA (w : SWorld) (e : EffId) :
    getA (dispose w e).effDeps e = some [] := by
  simp only [dispose]
  rw [disposeResume_effDeps]
  exact disposeSync_effDeps_getA w e

theorem dispose_effCleaner_getA (w : SWorld) (e : EffId) :
    getA (dispose w e).effCleaner e = some false := by
  simp only [dispose]
  exact disposeResume_effCleaner_getA _ _ _

theorem dispose_sigSubs (w : SWorld) (e : EffId) :
    (dispose w e).sigSubs = ((getD w.effDeps e []).foldl
      (fun w s => { w with sigSubs := setA w.sigSubs s ((getD w.sigSubs s []).filter (· ≠ e)) })
      w).sigSubs := by
  simp only [dispose]
  rw [disposeResume_sigSubs]
  simp only [disposeSync]

theorem unlinkFold_not_mem (e : EffId) (s : SigId) (deps : List SigId) :
    ∀ w : SWorld, (s ∈ deps ∨ e ∉ getD w.sigSubs s []) →
      e ∉ getD ((deps.foldl
        (fun w s => { w with sigSubs := setA w.sigSubs s ((getD w.sigSubs s []).filter (· ≠ e)) })
        w)).sigSubs s [] := by
  induction deps with
  | nil =>
    intro w h
    rcases h with h | h
    · simp at h
    · simpa using h
  | cons d rest ih =>
    intro w h
    rw [List.foldl_cons]
    apply ih
    by_cases hs : s ∈ rest
    · exact Or.inl hs
    · refine Or.inr ?_
      by_cases hd : d = s
      · subst hd
        simp only [getD, getA_setA_self, Option.getD_some]
        simp
      · simp only [getD, getA_setA_ne _ _ _ _ hd]
        rcases h with h | h
        · rcases List.mem_cons.mp h with h | h
          · exact absurd h.symm hd
          · exact absurd h hs
        · exact h

/-- After `dispose`, an effect has an empty dependency set and is no
longer registered on a signal it was linked to (the unlink closures it
held cover exactly the signals in its dependency set). -/
theorem dispose_clears (w : SWorld) (e : EffId) (s : SigId)
    (hinv : e ∈ getD w.sigSubs s [] → s ∈ getD w.effDeps e []) :
    getD (dispose w e).effDeps e [] = [] ∧ e ∉ getD (dispose w e).sigSubs s [] := by
  constructor
  · simp [getD, dispose_effDeps_getA]
  · rw [getD, dispose_sigSubs, ← getD]
    apply unlinkFold_not_mem
    by_cases hmem : e ∈ getD w.sigSubs s []
    · exact Or.inl (hinv hmem)
    · exact Or.inr hmem

theorem dispose_of_clean (W : SWorld) (e : EffId) (h1 : getA W.effDeps e = some [])
    (h2 : getA W.effCleaner e = some false) : dispose W e = W := by
  have hsync : disposeSync W e = (W, false) := by
    simp only [disposeSync, getD, h1, h2, Option.getD_some, List.foldl_nil,
      setA_self_of_getA _ _ _ h1]
  simp only [dispose, hsync]
  simp only [disposeResume, if_neg (by simp : ¬false = true)]
  rw [setA_self_of_getA _ _ _ h2]

/-- The conditional effect of the dependency re-tracking scenario:
`read C (signal 0); if C = 0 then read A (signal 1) else read B (signal 2)`. -/
def condBody : Body :=
  .read 0 (fun c => if c == 0 then .read 1 (fun _ => .ret false) else .read 2 (fun _ => .ret false))

def condBodies : EffId → Body := fun _ => condBody

def condW0 : SWorld := ⟨[(0, 0), (1, 10), (2, 20)], [], [], [], [], none⟩

def condW1 : SWorld := createEffect condBodies condW0 0

def condW2 : SWorld := (setSignal defaultEq condBodies condW1 0 (.inl 1) false).1

/-- C1: a `set` whose computed next value the signal's equality
predicate accepts is a complete no-op unless forced (conjunct 1); with
the default predicate, `set(x)` when the current value differs notifies
each currently registered dependent exactly once and an immediate second
`set(x)` notifies nothing (conjunct 2); any non-suppressed `set`
notifies the current dependents exactly once per call (conjunct 3). -/
theorem signal_set_equality_suppression :
    (∀ eqs bodies (w : SWorld) s value,
        eqs s (getD w.sigVal s 0) (computeNext value (getD w.sigVal s 0)) = true →
        setSignal eqs bodies w s value false = (w, [])) ∧
    (∀ bodies (w : SWorld) s x, getD w.sigVal s 0 ≠ x →
        (setSignal defaultEq bodies w s (.inl x) false).2 = getD w.sigSubs s [] ∧
        setSignal defaultEq bodies (setSignal defaultEq bodies w s (.inl x) false).1 s (.inl x) false
          = ((setSignal defaultEq bodies w s (.inl x) false).1, [])) ∧
    (∀ eqs bodies (w : SWorld) s value force,
        ¬(!force && eqs s (getD w.sigVal s 0) (computeNext value (getD w.sigVal s 0))) = true →
        (setSignal eqs bodies w s value force).2 = getD w.sigSubs s []) := by
  refine ⟨fun eqs bodies w s value h => setSignal_skip eqs bodies w s value h, ?_, ?_⟩
  · intro bodies w s x hne
    have hq : ¬(!false && defaultEq s (getD w.sigVal s 0)
        (computeNext (.inl x) (getD w.sigVal s 0))) = true := by
      simp [defaultEq, computeNext, hne]
    have h := setSignal_notifies defaultEq bodies w s (.inl x) false hq
    refine ⟨h.1, ?_⟩
    apply setSignal_skip
    rw [h.2]
    simp [defaultEq, computeNext]
  · intro eqs bodies w s value force h
    exact (setSignal_notifies eqs bodies w s value force h).1

theorem signal_set_equality_suppression_witness :
    ((getD (⟨[(0, 1)], [(0, [7])], [], [], [], none⟩ : SWorld).sigVal 0 0 ≠ 2) ∧
      (setSignal defaultEq (fun _ => .ret false)
          (⟨[(0, 1)], [(0, [7])], [], [], [], none⟩ : SWorld) 0 (.inl 2) false).2
        = getD (⟨[(0, 1)], [(0, [7])], [], [], [], none⟩ : SWorld).sigSubs 0 []) ∧
    (defaultEq 0 5 (computeNext (.inl 5) 5) = true ∧
      setSignal defaultEq (fun _ => .ret false)
          (⟨[(0, 5)], [], [], [], [], none⟩ : SWorld) 0 (.inl 5) false
        = ((⟨[(0, 5)], [], [], [], [], none⟩ : SWorld), [])) :=
  ⟨⟨by decide,
    (signal_set_equality_suppression.2.1 (fun _ => .ret false) _ 0 2 (by decide)).1⟩,
   ⟨by decide,
    signal_set_equality_suppression.1 defaultEq (fun _ => .ret false) _ 0 (.inl 5) (by decide)⟩⟩

/-- C2: an effect's dependency set is rebuilt from scratch on re-run —
`notify` first disposes, which empties the dependency set and removes
every stale registration from signal subscriber sets (conjunct 1, for
any world satisfying the link invariant at the signal in question); in
the concrete conditional scenario (effect reads C, then A or B
depending on C), after C flips the branch the effect depends on C and B
only, and a subsequent write to the no-longer-read A notifies no
dependents, i.e. the effect does not re-run (conjunct 2). -/
theorem effect_dependency_retracking :
    (∀ (w : SWorld) (e : EffId) (s : SigId),
        (e ∈ getD w.sigSubs s [] → s ∈ getD w.effDeps e []) →
        getD (dispose w e).effDeps e [] = [] ∧ e ∉ getD (dispose w e).sigSubs s []) ∧
    (getD condW2.effDeps 0 [] = [0, 2] ∧ getD condW2.sigSubs 1 [] = [] ∧
      (setSignal defaultEq condBodies condW2 1 (.inl 99) false).2 = []) := by
  refine ⟨fun w e s hinv => dispose_clears w e s hinv, ?_, ?_, ?_⟩ <;> decide

theorem effect_dependency_retracking_witness :
    (((0 : EffId) ∈ getD condW1.sigSubs 1 [] → (1 : SigId) ∈ getD condW1.effDeps 0 []) ∧
      (getD (dispose condW1 0).effDeps 0 [] = [] ∧
        (0 : EffId) ∉ getD (dispose condW1 0).sigSubs 1 [])) :=
  ⟨by decide, effect_dependency_retracking.1 condW1 0 1 (by decide)⟩

/-- C9 counterexample: an effect with a pending cleanup whose disposer
is called twice back-to-back in the same task.  Each call's synchronous
prefix captures the still-pending `cleaner` at its `await` before
either continuation has reset it, so the two suspended continuations
both invoke the cleanup: `cleanupRuns` ends at 2, refuting "does not
invoke the effect's cleanup (destructor) function a second time" — and
the second call is indeed made after the first has already cleared the
dependency links. -/
theorem effect_dispose_idempotent_counterexample :
    getD (⟨[], [], [(0, [])], [(0, true)], [], none⟩ : SWorld).effCleaner 0 false = true ∧
    getD (disposeSync (⟨[], [], [(0, [])], [(0, true)], [], none⟩ : SWorld) 0).1.effDeps 0 []
      = [] ∧
    getD (disposeTwiceRace (⟨[], [], [(0, [])], [(0, true)], [], none⟩ : SWorld) 0).cleanupRuns
      0 0 = 2 := by
  refine ⟨by decide, by decide, by decide⟩

/-- C9 amended: calling the disposer never throws (the model is total),
and a second `dispose()` that begins after a previous call ran to
completion is a no-op: the world is unchanged, so the cleanup is not
invoked again — in particular the second call operates on already
cleared dependency links (conjuncts 1 and 2).  But disposal is not
idempotent under the event loop's real interleaving: when the second
call is issued before the first call's `await cleaner` continuation has
run (two back-to-back synchronous calls), both calls capture the
pending cleanup and it is invoked twice (conjunct 3). -/
theorem effect_dispose_sequential_idempotent :
    (∀ (w : SWorld) (e : EffId), dispose (dispose w e) e = dispose w e) ∧
    (∀ (w : SWorld) (e : EffId),
      getD (dispose (dispose w e) e).cleanupRuns e 0 = getD (dispose w e).cleanupRuns e 0) ∧
    (∀ (w : SWorld) (e : EffId), getD w.effCleaner e false = true →
      getD (disposeTwiceRace w e).cleanupRuns e 0 = getD w.cleanupRuns e 0 + 2) := by
  have hseq : ∀ (w : SWorld) (e : EffId), dispose (dispose w e) e = dispose w e := fun w e =>
    dispose_of_clean (dispose w e) e (dispose_effDeps_getA w e) (dispose_effCleaner_getA w e)
  refine ⟨hseq, fun w e => by rw [hseq], ?_⟩
  intro w e h
  have c₁ : (disposeSync w e).2 = true := by rw [disposeSync_snd, h]
  have c₂ : (disposeSync (disposeSync w e).1 e).2 = true := by
    rw [disposeSync_snd, getD, disposeSync_effCleaner, ← getD, h]
  simp only [disposeTwiceRace]
  rw [c₁, c₂, disposeResume_cleanupRuns_true, disposeResume_cleanupRuns_true]
  rw [getD, disposeSync_cleanupRuns, disposeSync_cleanupRuns, ← getD]

theorem effect_dispose_sequential_idempotent_witness :
    (getD (⟨[], [], [], [(0, true)], [], none⟩ : SWorld).effCleaner 0 false = true) ∧
    getD (disposeTwiceRace (⟨[], [], [], [(0, true)], [], none⟩ : SWorld) 0).cleanupRuns 0 0
      = getD (⟨[], [], [], [(0, true)], [], none⟩ : SWorld).cleanupRuns 0 0 + 2 :=
  ⟨by decide,
   effect_dispose_sequential_idempotent.2.2 ⟨[], [], [], [(0, true)], [], none⟩ 0 (by decide)⟩

/-! ## JS values (`src/helpers.ts`)

Page props, remembered state and form data are arbitrary JS values.
`Json` models them: `undef` is `undefined` (also the result of reading
an absent property), `null` is `null`, numbers are modelled as integers
(the values exercised by the runtime's merge/equality logic; no NaN).
An `obj` is an association list of string keys; a JS object never has
two properties with the same key, which the well-formedness predicate
`wfJson` captures.  Property reads model data properties (own keys /
array indices); built-ins such as `length` are not modelled. -/

inductive Json where
  | undef
  | null
  | bool (b : Bool)
  | num (n : Int)
  | str (s : String)
  | arr (elems : List Json)
  | obj (fields : List (String × Json))

/-- JS truthiness: `undefined`, `null`, `false`, `0`, `""` are falsy;
every object or array (even empty) is truthy. -/
def truthy : Json → Bool
  | .undef => false
  | .null => false
  | .bool b => b
  | .num n => n != 0
  | .str s => s != ""
  | .arr _ => true
  | .obj _ => true

/-- `Object.keys` view of an array: index strings `"0"`, `"1"`, …
paired with the elements. -/
def arrFields (xs : List Json) : List (String × Json) :=
  xs.enum.map (fun p => (toString p.1, p.2))

/-- Property read `x[k]`: lookup on an object's own keys or an array's
canonical index strings; `undefined` when absent or when `x` is a
primitive. -/
def getField : Json → String → Json
  | .obj fs, k => getD fs k .undef
  | .arr xs, k => getD (arrFields xs) k .undef
  | _, _ => .undef

mutual

/-- The `isEqual` helper of `src/helpers.ts`:

```js
return x && y && tx === 'object' && tx === ty ? (
    ok(x).length === ok(y).length &&
    ok(x).every(key => isEqual(x[key], y[key]))
) : (x === y);
```

Both operands truthy and of `typeof === 'object'` (objects and arrays,
`null` being excluded by truthiness) compare by `Object.keys`: equal key
counts and, for every key of `x`, recursive equality of `x[key]` and
`y[key]`.  Everything else falls to `===`.  The four object/array
constructor pairs spell out `Object.keys` per shape (an array's keys are
its index strings); the mutual helpers walk the keys of the left
operand. -/
def jsEq : Json → Json → Bool
  | .arr xs, .arr ys => xs.length == ys.length && jsEqElems xs ys
  | .arr xs, .obj gs => xs.length == gs.length && jsEqIdx 0 xs gs
  | .obj fs, .arr ys => fs.length == ys.length && jsEqFields fs (.arr ys)
  | .obj fs, .obj gs => fs.length == gs.length && jsEqFields fs (.obj gs)
  | .undef, .undef => true
  | .null, .null => true
  | .bool a, .bool b => a == b
  | .num a, .num b => a == b
  | .str a, .str b => a == b
  | _, _ => false

/-- Keys of an array compared elementwise against another array
(`x[i]` vs `y[i]`). -/
def jsEqElems : List Json → List Json → Bool
  | [], _ => true
  | _ :: _, [] => false
  | x :: xs, y :: ys => jsEq x y && jsEqElems xs ys
termination_by structural xs _ => xs

/-- Keys of an array (index strings from `i` up) compared against an
object's fields. -/
def jsEqIdx : Nat → List Json → List (String × Json) → Bool
  | _, [], _ => true
  | i, x :: xs, gs => jsEq x (getD gs (toString i) .undef) && jsEqIdx (i + 1) xs gs
termination_by structural _ xs _ => xs

/-- Keys of an object compared against an arbitrary right operand
(`x[key]` vs `y[key]`). -/
def jsEqFields : List (String × Json) → Json → Bool
  | [], _ => true
  | (k, v) :: fs, y => jsEq v (getField y k) && jsEqFields fs y
termination_by structural fs _ => fs

end

mutual

/-- Well-formedness of a value as a JS value: no object carries two
properties with the same key. -/
def wfJson : Json → Bool
  | .arr xs => wfElems xs
  | .obj fs => decide ((fs.map Prod.fst).Nodup) && wfFields fs
  | _ => true

def wfElems : List Json → Bool
  | [] => true
  | x :: xs => wfJson x && wfElems xs

def wfFields : List (String × Json) → Bool
  | [] => true
  | (_, v) :: fs => wfJson v && wfFields fs

end

/-- Structural induction over `Json` with membership hypotheses for the
nested lists. -/
theorem Json.ind' (P : Json → Prop)
    (hundef : P .undef) (hnull : P .null) (hbool : ∀ b, P (.bool b))
    (hnum : ∀ n, P (.num n)) (hstr : ∀ s, P (.str s))
    (harr : ∀ xs, (∀ x ∈ xs, P x) → P (.arr xs))
    (hobj : ∀ fs, (∀ p ∈ fs, P p.2) → P (.obj fs)) : ∀ j, P j
  | .undef => hundef
  | .null => hnull
  | .bool b => hbool b
  | .num n => hnum n
  | .str s => hstr s
  | .arr xs => harr xs (fun x hx =>
      have : sizeOf x < 1 + sizeOf xs := by
        have := List.sizeOf_lt_of_mem hx
        omega
      Json.ind' P hundef hnull hbool hnum hstr harr hobj x)
  | .obj fs => hobj fs (fun p hp =>
      have : sizeOf p.2 < 1 + sizeOf fs := by
        have h1 := List.sizeOf_lt_of_mem hp
        have h2 : sizeOf p.2 < sizeOf p := by
          obtain ⟨k, v⟩ := p
          simp only [Prod.mk.sizeOf_spec]
          omega
        omega
      Json.ind' P hundef hnull hbool hnum hstr harr hobj p.2)
termination_by j => sizeOf j
decreasing_by all_goals (simp_wf; omega)

mutual

/-- Structural equality on `Json` values, used to decide `=`. -/
def beqJson : Json → Json → Bool
  | .undef, .undef => true
  | .null, .null => true
  | .bool a, .bool b => a == b
  | .num a, .num b => a == b
  | .str a, .str b => a == b
  | .arr xs, .arr ys => beqJList xs ys
  | .obj fs, .obj gs => beqJFields fs gs
  | _, _ => false

def beqJList : List Json → List Json → Bool
  | [], [] => true
  | x :: xs, y :: ys => beqJson x y && beqJList xs ys
  | _, _ => false

def beqJFields : List (String × Json) → List (String × Json) → Bool
  | [], [] => true
  | (k, v) :: fs, (k', v') :: gs => k == k' && beqJson v v' && beqJFields fs gs
  | _, _ => false

end

theorem beqJson_iff : ∀ a b, beqJson a b = true ↔ a = b := by
  intro a
  induction a using Json.ind' with
  | hundef => intro b; cases b <;> simp [beqJson]
  | hnull => intro b; cases b <;> simp [beqJson]
  | hbool x => intro b; cases b <;> simp [beqJson]
  | hnum x => intro b; cases b <;> simp [beqJson]
  | hstr x => intro b; cases b <;> simp [beqJson]
  | harr xs ih =>
    have hlist : ∀ ys, beqJList xs ys = true ↔ xs = ys := by
      induction xs with
      | nil => intro ys; cases ys <;> simp [beqJList]
      | cons x xs ihl =>
        intro ys
        cases ys with
        | nil => simp [beqJList]
        | cons y ys =>
          simp only [beqJList, Bool.and_eq_true]
          rw [ih x (by simp) y, ihl (fun z hz b => ih z (by simp [hz]) b) ys]
          simp
    intro b
    cases b <;> simp [beqJson, hlist]
  | hobj fs ih =>
    have hfields : ∀ gs, beqJFields fs gs = true ↔ fs = gs := by
      induction fs with
      | nil => intro gs; cases gs <;> simp [beqJFields]
      | cons p fs ihl =>
        intro gs
        obtain ⟨k, v⟩ := p
        cases gs with
        | nil => simp [beqJFields]
        | cons q gs =>
          obtain ⟨k', v'⟩ := q
          simp only [beqJFields, Bool.and_eq_true]
          rw [ih ⟨k, v⟩ (by simp) v', ihl (fun z hz b => ih z (by simp [hz]) b) gs]
          simp [and_assoc]
    intro b
    cases b <;> simp [beqJson, hfields]

instance : DecidableEq Json := fun a b => decidable_of_iff _ (beqJson_iff a b)

theorem getA_mem_nodup {α : Type} (l : List (String × α)) (k : String) (v : α)
    (hnd : (l.map Prod.fst).Nodup) (h : (k, v) ∈ l) : getA l k = some v := by
  induction l with
  | nil => simp at h
  | cons p rest ih =>
    obtain ⟨k₀, v₀⟩ := p
    simp only [List.map_cons, List.nodup_cons] at hnd
    rcases List.mem_cons.mp h with h | h
    · injection h with h1 h2
      subst h1; subst h2
      simp [getA]
    · have hk : k₀ ≠ k := by
        intro hh
        subst hh
        exact hnd.1 (List.mem_map.mpr ⟨(k₀, v), h, rfl⟩)
      simp [getA, hk, ih hnd.2 h]

theorem wfElems_forall (xs : List Json) :
    wfElems xs = true ↔ ∀ x ∈ xs, wfJson x = true := by
  induction xs with
  | nil => simp [wfElems]
  | cons x xs ih => simp [wfElems, ih]

theorem wfFields_forall (fs : List (String × Json)) :
    wfFields fs = true ↔ ∀ p ∈ fs, wfJson p.2 = true := by
  induction fs with
  | nil => simp [wfFields]
  | cons p fs ih =>
    obtain ⟨k, v⟩ := p
    simp [wfFields, ih]

theorem jsEqElems_refl (xs : List Json) (h : ∀ x ∈ xs, jsEq x x = true) :
    jsEqElems xs xs = true := by
  induction xs with
  | nil => simp [jsEqElems]
  | cons x xs ih =>
    simp only [jsEqElems, Bool.and_eq_true]
    exact ⟨h x (by simp), ih (fun z hz => h z (by simp [hz]))⟩

theorem jsEqFields_of_forall (fs : List (String × Json)) (y : Json)
    (h : ∀ p ∈ fs, jsEq p.2 (getField y p.1) = true) : jsEqFields fs y = true := by
  induction fs with
  | nil => simp [jsEqFields]
  | cons p fs ih =>
    obtain ⟨k, v⟩ := p
    simp only [jsEqFields, Bool.and_eq_true]
    exact ⟨h (k, v) (by simp), ih (fun z hz => h z (by simp [hz]))⟩

/-- `isEqual` is reflexive on well-formed JS values. -/
theorem jsEq_refl : ∀ j, wfJson j = true → jsEq j j = true := by
  intro j
  induction j using Json.ind' with
  | hundef => intro _; simp [jsEq]
  | hnull => intro _; simp [jsEq]
  | hbool b => intro _; simp [jsEq]
  | hnum n => intro _; simp [jsEq]
  | hstr s => intro _; simp [jsEq]
  | harr xs ih =>
    intro hwf
    simp only [wfJson] at hwf
    simp only [jsEq, Bool.and_eq_true, beq_iff_eq]
    exact ⟨trivial, jsEqElems_refl xs (fun x hx => ih x hx ((wfElems_forall xs).mp hwf x hx))⟩
  | hobj fs ih =>
    intro hwf
    simp only [wfJson, Bool.and_eq_true, decide_eq_true_eq] at hwf
    simp only [jsEq, Bool.and_eq_true, beq_iff_eq]
    refine ⟨trivial, jsEqFields_of_forall fs (.obj fs) (fun p hp => ?_)⟩
    have : getField (.obj fs) p.1 = p.2 := by
      obtain ⟨k, v⟩ := p
      simp [getField, getD, getA_mem_nodup fs k v hwf.1 hp]
    rw [this]
    exact ih p hp ((wfFields_forall fs).mp hwf.2 p hp)

/-! ## Form engine (`src/form.ts`)

`useForm` wraps a `Form` instance in a recursive proxy; assignment to a
data field is the mutation API.  For dirtiness the relevant state is the
current field values (`this[key]`, proxy-wrapped — unwrapping is the
identity on the underlying data) and the `_defaults` snapshot.
`data()` reads the keys of `_defaults` off the instance (`undefined`
for a field that was never assigned), `isDirty` is
`!isEqual(this.data(), this._defaults)`.  The bookkeeping members
(`errors`, `processing`, …) are not keys of `_defaults` and never enter
`data()`, so they are omitted from the state. -/

structure FormSt where
  fields : List (String × Json)
  defaults : List (String × Json)
deriving DecidableEq

/-- `data()`: a plain snapshot restricted to the keys of `_defaults`. -/
def dataOf (s : FormSt) : List (String × Json) :=
  s.defaults.map (fun p => (p.1, getD s.fields p.1 .undef))

/-- `get isDirty() { return !isEqual(this.data(), this._defaults); }` -/
def isDirty (s : FormSt) : Bool :=
  !(jsEq (.obj (dataOf s)) (.obj s.defaults))

/-- `reset(...fields)`: `Object.assign(this, proxyWrap(data))` where
`data` is `_defaults` itself (no arguments) or its restriction to the
named fields (iterating `Object.keys(_defaults)`). -/
def reset (s : FormSt) (fieldNames : List String) : FormSt :=
  let data := if fieldNames.length > 0
    then ((s.defaults.map Prod.fst).filter (fun k => k ∈ fieldNames)).map
      (fun k => (k, getD s.defaults k .undef))
    else s.defaults
  { s with fields := assignAll s.fields data }

/-- The constructor: `_defaults := initial` followed by `this.reset()`
(no field of `initial` is assigned before that). -/
def mkForm (initial : List (String × Json)) : FormSt :=
  reset { defaults := initial, fields := [] } []

/-- A proxied field assignment `form.k = v`. -/
def setField (s : FormSt) (k : String) (v : Json) : FormSt :=
  { s with fields := setA s.fields k v }

/-- `defaults()` with no arguments: capture the current values of the
keys of `_defaults` and merge them over the old baseline
(`this._defaults = { ...this._defaults, ...field }`). -/
def captureDefaults (s : FormSt) : FormSt :=
  { s with defaults := assignAll s.defaults (dataOf s) }

theorem getA_map_keyfun {α : Type} (l : List (String × α)) (g : String → α) (k : String) :
    getA (l.map (fun p => (p.1, g p.1))) k = (getA l k).map (fun _ => g k) := by
  induction l with
  | nil => simp
  | cons p rest ih =>
    obtain ⟨k₀, v₀⟩ := p
    by_cases hk : k₀ = k <;> simp [getA, hk, ih]

theorem map_getD_self (fs : List (String × Json)) (hnd : (fs.map Prod.fst).Nodup) :
    fs.map (fun p => (p.1, getD fs p.1 .undef)) = fs := by
  induction fs with
  | nil => simp
  | cons p rest ih =>
    obtain ⟨k, v⟩ := p
    simp only [List.map_cons, List.nodup_cons] at hnd
    rw [List.map_cons]
    congr 1
    · simp [getD, getA]
    · have hcong : ∀ q ∈ rest, (fun p => (p.1, getD ((k, v) :: rest) p.1 .undef)) q
          = (fun p => (p.1, getD rest p.1 .undef)) q := by
        intro q hq
        have hne : k ≠ q.1 := by
          intro hh
          exact hnd.1 (hh ▸ List.mem_map.mpr ⟨q, hq, rfl⟩)
        simp [getD, getA, hne]
      rw [List.map_congr_left hcong, ih hnd.2]

theorem setA_map_fst_mem {α : Type} (l : List (String × α)) (k : String) (v : α)
    (h : k ∈ l.map Prod.fst) : (setA l k v).map Prod.fst = l.map Prod.fst := by
  induction l with
  | nil => simp at h
  | cons p rest ih =>
    obtain ⟨k₀, v₀⟩ := p
    by_cases hk : k₀ = k
    · simp [setA, hk]
    · simp only [List.map_cons, List.mem_cons] at h
      rcases h with h | h
      · exact absurd h.symm hk
      · simp [setA, hk, ih h]

theorem assignAll_map_fst {α : Type} (upd base : List (String × α))
    (h : ∀ k ∈ upd.map Prod.fst, k ∈ base.map Prod.fst) :
    (assignAll base upd).map Prod.fst = base.map Prod.fst := by
  induction upd generalizing base with
  | nil => simp
  | cons p rest ih =>
    obtain ⟨k₀, v₀⟩ := p
    rw [assignAll_cons]
    have hk : k₀ ∈ base.map Prod.fst := h k₀ (by simp)
    have hsub : ∀ k ∈ rest.map Prod.fst, k ∈ (setA base k₀ v₀).map Prod.fst := by
      intro k hkk
      rw [setA_map_fst_mem _ _ _ hk]
      exact h k (by simp [hkk])
    rw [ih _ hsub, setA_map_fst_mem _ _ _ hk]

theorem getA_eq_some_mem {κ α : Type} [DecidableEq κ] (l : List (κ × α)) (k : κ) (v : α) :
    getA l k = some v → (k, v) ∈ l := by
  induction l with
  | nil => intro h; simp at h
  | cons p rest ih =>
    obtain ⟨k₀, v₀⟩ := p
    intro h
    by_cases hk : k₀ = k
    · subst hk
      have h' : v₀ = v := by simpa [getA] using h
      simp [h']
    · simp only [getA_cons, if_neg hk] at h
      simp [ih h]

theorem wf_getD (l : List (String × Json)) (k : String)
    (h : ∀ p ∈ l, wfJson p.2 = true) : wfJson (getD l k .undef) = true := by
  rw [getD]
  rcases hg : getA l k with _ | v
  · rfl
  · simpa using h (k, v) (getA_eq_some_mem l k v hg)

theorem dataOf_reset (s : FormSt) (hnd : (s.defaults.map Prod.fst).Nodup) :
    dataOf (reset s []) = s.defaults := by
  simp only [dataOf, reset, List.length_nil, if_neg (by simp : ¬(0 : Nat) > 0)]
  have hcong : ∀ q ∈ s.defaults,
      (fun p => (p.1, getD (assignAll s.fields s.defaults) p.1 .undef)) q
        = (fun p => (p.1, getD s.defaults p.1 .undef)) q := by
    intro q hq
    have hmem : q.1 ∈ s.defaults.map Prod.fst := List.mem_map.mpr ⟨q, hq, rfl⟩
    simp [getD, getA_assignAll_mem _ _ _ hnd hmem]
  rw [List.map_congr_left hcong, map_getD_self _ hnd]

/-- C8: `isDirty` holds exactly when the `data()` snapshot is
deep-structurally unequal (in the sense of the `isEqual` helper) to the
`_defaults` baseline (conjunct 5); consequently it is `false`
immediately after construction (conjunct 1) and after `reset()` with no
arguments (conjunct 2), `true` after a field assignment that makes the
snapshot unequal to the baseline (conjunct 3), and `false` again after
`defaults()` with no arguments re-captures the baseline from the
current values (conjunct 4).  Well-formedness asks that JS objects have
no duplicate keys. -/
theorem form_isDirty_iff_unequal_defaults :
    (∀ initial, wfJson (.obj initial) = true → isDirty (mkForm initial) = false) ∧
    (∀ s : FormSt, wfJson (.obj s.defaults) = true → isDirty (reset s []) = false) ∧
    (∀ (s : FormSt) (k : String) (v : Json),
        jsEq (.obj (dataOf (setField s k v))) (.obj (setField s k v).defaults) = false →
        isDirty (setField s k v) = true) ∧
    (∀ s : FormSt, (s.defaults.map Prod.fst).Nodup →
        (∀ p ∈ s.fields, wfJson p.2 = true) →
        isDirty (captureDefaults s) = false) ∧
    (∀ s : FormSt, isDirty s = true ↔ jsEq (.obj (dataOf s)) (.obj s.defaults) = false) := by
  have hreset : ∀ s : FormSt, wfJson (.obj s.defaults) = true → isDirty (reset s []) = false := by
    intro s hwf
    have hnd : (s.defaults.map Prod.fst).Nodup := by
      simp only [wfJson, Bool.and_eq_true, decide_eq_true_eq] at hwf
      exact hwf.1
    simp only [isDirty]
    rw [dataOf_reset s hnd]
    have h2 : (reset s []).defaults = s.defaults := rfl
    rw [h2, jsEq_refl _ hwf]
    rfl
  refine ⟨fun initial hwf => hreset ⟨[], initial⟩ hwf, hreset, ?_, ?_, ?_⟩
  · intro s k v h
    simp [isDirty, h]
  · intro s hnd hwfF
    have hkeys : ((dataOf s).map Prod.fst) = s.defaults.map Prod.fst := by
      simp [dataOf, Function.comp]
    have hkeys' : (captureDefaults s).defaults.map Prod.fst = s.defaults.map Prod.fst := by
      simp only [captureDefaults]
      exact assignAll_map_fst _ _ (fun k hk => by rw [hkeys] at hk; exact hk)
    have hlen : (captureDefaults s).defaults.length = s.defaults.length := by
      have := congrArg List.length hkeys'
      simpa using this
    simp only [isDirty, Bool.not_eq_false']
    simp only [jsEq, Bool.and_eq_true, beq_iff_eq]
    constructor
    · simp [dataOf]
    · apply jsEqFields_of_forall
      intro p hp
      simp only [dataOf, List.mem_map] at hp
      obtain ⟨q, hq, hpq⟩ := hp
      subst hpq
      have hqmem : q.1 ∈ (captureDefaults s).defaults.map Prod.fst := List.mem_map.mpr ⟨q, hq, rfl⟩
      have hqmem' : q.1 ∈ (dataOf s).map Prod.fst := by
        rw [hkeys]
        rw [hkeys'] at hqmem
        exact hqmem
      have hndC : ((dataOf s).map Prod.fst).Nodup := by rw [hkeys]; exact hnd
      have hval : getA (captureDefaults s).defaults q.1 = some (getD s.fields q.1 .undef) := by
        simp only [captureDefaults]
        rw [getA_assignAll_mem _ _ _ hndC hqmem']
        simp only [dataOf]
        rw [getA_map_keyfun s.defaults (fun x => getD s.fields x Json.undef) q.1]
        rcases hg : getA s.defaults q.1 with _ | v
        · rw [hkeys] at hqmem'
          exfalso
          rcases List.mem_map.mp hqmem' with ⟨r, hr, hrq⟩
          have hsome := getA_mem_nodup s.defaults r.1 r.2 hnd (by simpa using hr)
          rw [hrq, hg] at hsome
          exact Option.noConfusion hsome
        · rfl
      have hfield : getField (.obj (captureDefaults s).defaults) q.1
          = getD s.fields q.1 .undef := by
        simp [getField, getD, hval]
      rw [hfield]
      dsimp only
      exact jsEq_refl _ (wf_getD s.fields q.1 hwfF)
  · intro s
    simp [isDirty]

def formEx0 : FormSt := mkForm [("name", .str "a")]

def formEx1 : FormSt := setField formEx0 "name" (.str "b")

theorem form_isDirty_iff_unequal_defaults_witness :
    (wfJson (.obj [("name", Json.str "a")]) = true ∧ isDirty formEx0 = false) ∧
    (jsEq (.obj (dataOf formEx1)) (.obj formEx1.defaults) = false ∧ isDirty formEx1 = true) ∧
    ((formEx1.defaults.map Prod.fst).Nodup ∧ (∀ p ∈ formEx1.fields, wfJson p.2 = true) ∧
      isDirty (captureDefaults formEx1) = false) :=
  ⟨⟨by decide, form_isDirty_iff_unequal_defaults.1 [("name", .str "a")] (by decide)⟩,
   ⟨by decide, form_isDirty_iff_unequal_defaults.2.2.1 formEx0 "name" (.str "b") (by decide)⟩,
   ⟨by decide, by decide,
    form_isDirty_iff_unequal_defaults.2.2.2.1 formEx1 (by decide) (by decide)⟩⟩

/-! ## Page payloads and prop merging (inertia extension, `core.ts`) -/

/-- The `Page` shape declared by the inertia extension: component,
props, url, version, control flags, and the deferred/merge prop key
lists. -/
structure PageData where
  component : String
  props : List (String × Json)
  url : String
  version : Option String
  clearHistory : Bool
  encryptHistory : Bool
  deferredProps : Option (List (String × List String))
  mergeProps : Option (List String)
  deepMergeProps : Option (List String)
deriving DecidableEq

/-- Object spread `{...target}`: an object's fields, an array's indexed
elements, a string's indexed characters; primitives spread to `{}`. -/
def spreadToObj : Json → List (String × Json)
  | .obj fs => fs
  | .arr xs => arrFields xs
  | .str s => s.toList.enum.map (fun p => (toString p.1, Json.str (String.mk [p.2])))
  | _ => []

/-- Array spread `[...x]`: arrays spread to their elements, strings to
their characters, anything else is not iterable and throws a
`TypeError` (`none`). -/
def iterSpread : Json → Option (List Json)
  | .arr xs => some xs
  | .str s => some (s.toList.map (fun c => Json.str (String.mk [c])))
  | _ => none

/-- The `deepMerge` helper of `core.ts`: an array source concatenates
onto the target when the target is an array (else onto `[]`); an object
source reduces over its keys, setting `acc[key] = deepMerge(target ?
target[key] : undefined, source[key])` into a copy `{...target}` of the
target (that reduce over an association list is exactly `assignAll`);
any other source is returned directly.  (`attach` only carries the
membership proofs for termination.) -/
def deepMerge (target source : Json) : Json :=
  match source with
  | .arr ys => .arr ((match target with | .arr xs => xs | _ => []) ++ ys)
  | .obj gs =>
    .obj (assignAll (spreadToObj target)
      (gs.attach.map (fun p =>
        (p.1.1, deepMerge (if truthy target then getField target p.1.1 else .undef) p.1.2))))
  | _ => source
termination_by sizeOf source
decreasing_by
  have h1 := List.sizeOf_lt_of_mem p.2
  have h2 : sizeOf p.1.2 < sizeOf p.1 := by
    obtain ⟨⟨k, v⟩, hp⟩ := p
    simp only [Prod.mk.sizeOf_spec]
    omega
  simp only [Json.obj.sizeOf_spec]
  omega

/-- One iteration of the `mergeProps` loop of `pageMutations`: read the
incoming prop; an array concatenates `[...(old || []), ...incoming]`
(spreading a non-iterable old value throws, `none`); a non-null object
shallow-merges `{...(old || []), ...incoming}`; anything else leaves the
prop untouched. -/
def mergePropStep (oldProps : List (String × Json)) (acc : List (String × Json))
    (prop : String) : Option (List (String × Json)) :=
  let oldVal := getD oldProps prop .undef
  let oldOrEmpty := if truthy oldVal then oldVal else .arr []
  match getD acc prop .undef with
  | .arr ys => (iterSpread oldOrEmpty).map (fun xs => setA acc prop (.arr (xs ++ ys)))
  | .obj gs => some (setA acc prop (.obj (assignAll (spreadToObj oldOrEmpty) gs)))
  | _ => some acc

/-- `pageMutations(newPage, oldPage)`: first every key of
`deepMergeProps` is deep-merged against the old page's prop, then every
key of `mergeProps` is concatenated / shallow-merged; `none` models a
thrown `TypeError`. -/
def pageMutations (newPage oldPage : PageData) : Option PageData :=
  let props₁ := match newPage.deepMergeProps with
    | some l => l.foldl (fun acc prop =>
        setA acc prop (deepMerge (getD oldPage.props prop .undef) (getD acc prop .undef)))
        newPage.props
    | none => newPage.props
  match newPage.mergeProps with
  | some l => (l.foldlM (mergePropStep oldPage.props) props₁).map
      (fun props₂ => { newPage with props := props₂ })
  | none => some { newPage with props := props₁ }

theorem deepMerge_obj (t : Json) (gs : List (String × Json)) :
    deepMerge t (.obj gs) = .obj (assignAll (spreadToObj t)
      (gs.map (fun q => (q.1, deepMerge (if truthy t then getField t q.1 else .undef) q.2)))) := by
  simp only [deepMerge]
  rw [List.attach_map_val gs
    (fun q => (q.1, deepMerge (if truthy t then getField t q.1 else .undef) q.2))]

theorem getA_mapFn {α : Type} (gs : List (String × α)) (F : String → α → α) (k : String) :
    getA (gs.map (fun q => (q.1, F q.1 q.2))) k = (getA gs k).map (fun sv => F k sv) := by
  induction gs with
  | nil => simp
  | cons q rest ih =>
    obtain ⟨k₀, v₀⟩ := q
    by_cases hk : k₀ = k
    · subst hk; simp [getA]
    · simp [getA, hk, ih]

theorem getA_is_some_of_mem {α : Type} (l : List (String × α)) (k : String)
    (h : k ∈ l.map Prod.fst) : ∃ v, getA l k = some v := by
  induction l with
  | nil => simp at h
  | cons q rest ih =>
    obtain ⟨k₀, v₀⟩ := q
    by_cases hk : k₀ = k
    · exact ⟨v₀, by simp [getA, hk]⟩
    · simp only [List.map_cons, List.mem_cons] at h
      rcases h with h | h
      · exact absurd h.symm hk
      · rcases ih h with ⟨v, hv⟩
        exact ⟨v, by simp [getA, hk, hv]⟩

theorem deepMerge_obj_getA (t : Json) (gs : List (String × Json))
    (hnd : (gs.map Prod.fst).Nodup) (k : String) :
    getField (deepMerge t (.obj gs)) k
      = match getA gs k with
        | some sv => deepMerge (if truthy t then getField t k else .undef) sv
        | none => getD (spreadToObj t) k .undef := by
  rw [deepMerge_obj]
  have hkeys : (gs.map (fun q =>
      (q.1, deepMerge (if truthy t then getField t q.1 else .undef) q.2))).map Prod.fst
        = gs.map Prod.fst := by
    simp [Function.comp]
  have hobjF : ∀ l : List (String × Json), getField (.obj l) k = (getA l k).getD .undef :=
    fun l => rfl
  rw [hobjF]
  by_cases hmem : k ∈ gs.map Prod.fst
  · rw [getA_assignAll_mem _ _ _ (by rw [hkeys]; exact hnd) (by rw [hkeys]; exact hmem)]
    rw [getA_mapFn gs (fun a b => deepMerge (if truthy t then getField t a else .undef) b) k]
    rcases hg : getA gs k with _ | sv
    · rcases getA_is_some_of_mem gs k hmem with ⟨v, hv⟩
      rw [hg] at hv
      exact Option.noConfusion hv
    · simp
  · rw [getA_assignAll_not_mem _ _ _ (by rw [hkeys]; exact hmem)]
    rcases hg : getA gs k with _ | sv
    · rfl
    · exact absurd (List.mem_map.mpr ⟨(k, sv), getA_eq_some_mem gs k sv hg, rfl⟩) hmem

theorem mergePropStep_getA_ne (oldProps acc acc' : List (String × Json)) (q p : String)
    (hne : q ≠ p) (h : mergePropStep oldProps acc q = some acc') : getA acc' p = getA acc p := by
  simp only [mergePropStep] at h
  split at h
  · rcases Option.map_eq_some'.mp h with ⟨xs, _, hx⟩
    rw [← hx, getA_setA_ne _ _ _ _ hne]
  · injection h with h
    rw [← h, getA_setA_ne _ _ _ _ hne]
  · injection h with h
    rw [← h]

theorem foldlM_mergeProp_not_mem (oldProps : List (String × Json)) (l : List String)
    (p : String) (hp : p ∉ l) :
    ∀ (acc r : List (String × Json)), l.foldlM (mergePropStep oldProps) acc = some r →
      getA r p = getA acc p := by
  induction l with
  | nil =>
    intro acc r h
    simp only [List.foldlM_nil] at h
    injection h with h
    rw [h]
  | cons q rest ih =>
    intro acc r h
    simp only [List.foldlM_cons, Option.bind_eq_bind] at h
    rcases Option.bind_eq_some.mp h with ⟨acc', hstep, hrest⟩
    have hq : q ≠ p := fun hh => hp (hh ▸ List.mem_cons_self q rest)
    have hprest : p ∉ rest := fun hh => hp (List.mem_cons_of_mem q hh)
    rw [ih hprest acc' r hrest, mergePropStep_getA_ne _ _ _ _ _ hq hstep]

theorem foldlM_mergeProp_mem (oldProps : List (String × Json)) (l : List String)
    (p : String) (hnd : l.Nodup) (hmem : p ∈ l) :
    ∀ (acc r : List (String × Json)), l.foldlM (mergePropStep oldProps) acc = some r →
      ∃ acc₀ acc₁, getA acc₀ p = getA acc p ∧ mergePropStep oldProps acc₀ p = some acc₁ ∧
        getA r p = getA acc₁ p := by
  induction l with
  | nil => simp at hmem
  | cons q rest ih =>
    intro acc r h
    simp only [List.foldlM_cons, Option.bind_eq_bind] at h
    rcases Option.bind_eq_some.mp h with ⟨acc', hstep, hrest⟩
    simp only [List.nodup_cons] at hnd
    by_cases hq : q = p
    · subst hq
      exact ⟨acc, acc', rfl, hstep, foldlM_mergeProp_not_mem oldProps rest q hnd.1 acc' r hrest⟩
    · have hp : p ∈ rest := by
        rcases List.mem_cons.mp hmem with h | h
        · exact absurd h.symm hq
        · exact h
      rcases ih hnd.2 hp acc' r hrest with ⟨acc₀, acc₁, h1, h2, h3⟩
      exact ⟨acc₀, acc₁, h1.trans (mergePropStep_getA_ne _ _ _ _ _ hq hstep), h2, h3⟩

def basePage : PageData := ⟨"Comp", [], "/u", none, false, false, none, none, none⟩

def mergeExOld : PageData := { basePage with props := [("list", .arr [.num 1, .num 2])] }

def mergeExNew : PageData :=
  { basePage with props := [("list", .arr [.num 3, .num 4])], mergeProps := some ["list"] }

def deepExOld : PageData := { basePage with props := [("a", .obj [("x", .num 1)])] }

def deepExNew : PageData :=
  { basePage with props := [("a", .obj [("y", .num 2)])], deepMergeProps := some ["a"] }

/-- C3: reconciliation of flagged props.  (1) A prop named in the
incoming page's `mergeProps` whose incoming value is an array ends up
as the previous page's array (or `[]` when the previous prop is absent)
concatenated with the incoming array.  (2) `deepMerge` of two objects
merges key by key: a key of the source merges recursively against the
target's value at that key, every other key keeps the target's value.
(3) The spec's concrete instances: `{list: [1,2]}` merged with incoming
`[3,4]` yields `[1,2,3,4]`; deep-merging previous `{a:{x:1}}` with
incoming `{a:{y:2}}` yields `{a:{x:1,y:2}}`. -/
theorem merge_props_reconciliation :
    (∀ (newP oldP : PageData) (l : List String) (p : String) (xs ys : List Json) (r : PageData),
        newP.deepMergeProps = none →
        newP.mergeProps = some l → p ∈ l → l.Nodup →
        getD newP.props p .undef = .arr ys →
        (getD oldP.props p .undef = .arr xs ∨ (getD oldP.props p .undef = .undef ∧ xs = [])) →
        pageMutations newP oldP = some r →
        getD r.props p .undef = .arr (xs ++ ys)) ∧
    (∀ (fs gs : List (String × Json)) (k : String), (gs.map Prod.fst).Nodup →
        getField (deepMerge (.obj fs) (.obj gs)) k
          = (match getA gs k with
             | some sv => deepMerge (getD fs k .undef) sv
             | none => getD fs k .undef)) ∧
    ((pageMutations mergeExNew mergeExOld).map (fun r => getD r.props "list" .undef)
        = some (.arr [.num 1, .num 2, .num 3, .num 4]) ∧
      deepMerge (.obj [("x", .num 1)]) (.obj [("y", .num 2)])
        = .obj [("x", .num 1), ("y", .num 2)] ∧
      (pageMutations deepExNew deepExOld).map (fun r => getD r.props "a" .undef)
        = some (.obj [("x", .num 1), ("y", .num 2)])) := by
  have hdm : deepMerge (.obj [("x", .num 1)]) (.obj [("y", .num 2)])
      = .obj [("x", .num 1), ("y", .num 2)] := by
    simp [deepMerge, spreadToObj, truthy, getField, getD, getA, assignAll, setA,
      List.attach, List.attachWith, List.pmap]
  refine ⟨?_, ?_, by decide, hdm, ?_⟩
  · intro newP oldP l p xs ys r hdeep hmerge hp hnd hin hold hpm
    simp only [pageMutations, hdeep, hmerge] at hpm
    rcases Option.map_eq_some'.mp hpm with ⟨props₂, hfold, hr⟩
    rcases foldlM_mergeProp_mem oldP.props l p hnd hp newP.props props₂ hfold
      with ⟨acc₀, acc₁, h1, h2, h3⟩
    have hacc₀ : getD acc₀ p .undef = .arr ys := by
      rw [getD, h1, ← getD, hin]
    simp only [mergePropStep, hacc₀] at h2
    have holdOr : (if truthy (getD oldP.props p .undef) then getD oldP.props p .undef
        else .arr []) = .arr xs := by
      rcases hold with h | ⟨h, hxs⟩
      · rw [h]; rfl
      · rw [h, hxs]; rfl
    rw [holdOr] at h2
    simp only [iterSpread, Option.map_some'] at h2
    injection h2 with h2
    rw [← hr]
    simp only [getD, h3, ← h2, getA_setA_self, Option.getD_some]
  · intro fs gs k hnd
    rw [deepMerge_obj_getA (.obj fs) gs hnd k]
    rcases getA gs k with _ | sv
    · simp [spreadToObj]
    · simp [truthy, getField]
  · simp only [pageMutations, deepExNew, deepExOld, basePage]
    simp only [List.foldl_cons, List.foldl_nil, getD, getA, Option.getD_some, Option.getD_none]
    norm_num [setA, hdm, getD, getA]

def mergeExRes : PageData :=
  { mergeExNew with props := [("list", .arr [.num 1, .num 2, .num 3, .num 4])] }

theorem merge_props_reconciliation_witness :
    (mergeExNew.deepMergeProps = none ∧ mergeExNew.mergeProps = some ["list"] ∧
      "list" ∈ ["list"] ∧ (["list"] : List String).Nodup ∧
      getD mergeExNew.props "list" .undef = .arr [.num 3, .num 4] ∧
      getD mergeExOld.props "list" .undef = .arr [.num 1, .num 2] ∧
      pageMutations mergeExNew mergeExOld = some mergeExRes ∧
      getD mergeExRes.props "list" .undef = .arr ([.num 1, .num 2] ++ [.num 3, .num 4])) ∧
    (((([("y", Json.num 2)] : List (String × Json)).map Prod.fst).Nodup) ∧
      getField (deepMerge (.obj [("x", .num 1)]) (.obj [("y", .num 2)])) "x"
        = (match getA [("y", Json.num 2)] "x" with
           | some sv => deepMerge (getD [("x", Json.num 1)] "x" .undef) sv
           | none => getD [("x", Json.num 1)] "x" .undef)) :=
  ⟨⟨by decide, by decide, by decide, by decide, by decide, by decide, by decide,
    merge_props_reconciliation.1 mergeExNew mergeExOld ["list"] "list"
      [.num 1, .num 2] [.num 3, .num 4] mergeExRes (by decide) (by decide) (by decide)
      (by decide) (by decide) (Or.inl (by decide)) (by decide)⟩,
   ⟨by decide,
    merge_props_reconciliation.2.1 [("x", .num 1)] [("y", .num 2)] "x" (by decide)⟩⟩

/-! ## History state (inertia extension `state.ts`)

`makeState` assembles `{page, remember}` and encrypts it when
`page.encryptHistory` is set; the model keeps the assembled pair and an
`encrypted` flag (the AES-GCM layer itself is abstracted by
`StoredState`/`resolveState` below).  The browser history is a list of
entries whose last element is the current one: `replaceState` replaces
it, `pushState` appends.  `ClientState` collects the page store, the
history, the current location, the process-wide remember `cache`, and
observable side effects of the pipeline (dispatched deferred-prop
reloads, a hard redirect, a rendered error overlay, a scroll reset, and
whether the session-scoped encryption keys are still present). -/

structure HistEntry where
  page : PageData
  remember : List (String × Json)
  encrypted : Bool
deriving DecidableEq

structure ClientState where
  page : PageData
  history : List HistEntry
  locationHref : String
  remember : List (String × Json)
  dispatched : List (List String)
  hardRedirect : Option String
  renderedError : Bool
  scrolledTop : Bool
  sessionKeys : Bool
deriving DecidableEq

/-- `makeState(page, remember)`. -/
def makeEntry (pg : PageData) (rem : List (String × Json)) : HistEntry :=
  ⟨pg, rem, pg.encryptHistory⟩

/-- `history.replaceState`: replace the current (last) entry. -/
def replaceTop (h : List HistEntry) (e : HistEntry) : List HistEntry :=
  h.dropLast ++ [e]

/-- `pushState(data, replace)` of `state.ts`:

```js
const pageState = replace ? data : page.get()
if (cache.size > 0) {
    history.replaceState(await makeState(pageState, remember), "", window.location.href)
    if (replace) return
}
cache.clear()
window.history[method](await makeState(data), "", data.url)
```

When the remember table is non-empty the departing state (for a push,
the current page; for a replace, `data` itself) is folded together with
the table into the current entry via `replaceState`, and a replace-type
call returns there, leaving the table intact; otherwise the table is
cleared and the new entry `{page: data, remember: {}}` is written under
`data.url`. -/
def pushStateFn (st : ClientState) (data : PageData) (replace : Bool) : ClientState :=
  let pageState := if replace then data else st.page
  let (st₀, early) :=
    if st.remember.length > 0 then
      ({ st with history := replaceTop st.history (makeEntry pageState st.remember) }, replace)
    else (st, false)
  if early then st₀
  else
    let st₁ := { st₀ with remember := [] }
    if replace then
      { st₁ with history := replaceTop st₁.history (makeEntry data []), locationHref := data.url }
    else
      { st₁ with history := st₁.history ++ [makeEntry data []], locationHref := data.url }

/-- A history entry as retrieved on `popstate`: either plain structured
data or a blob encrypted under a session key (identified by `keyId`). -/
inductive StoredState where
  | plain (page : PageData) (remember : List (String × Json))
  | encrypted (keyId : Nat) (page : PageData) (remember : List (String × Json))
deriving DecidableEq

/-- `resolveState`: a plain entry is returned as-is; an encrypted blob
is decrypted.  The AES-GCM layer of `encryption.ts` is abstracted:
authenticated decryption succeeds exactly when the session-scoped key
the blob was written under is still the current one, and throws
(`none`) otherwise — e.g. when session storage was cleared. -/
def resolveState (currentKey : Option Nat) : StoredState → Option (PageData × List (String × Json))
  | .plain pg rem => some (pg, rem)
  | .encrypted kid pg rem => if currentKey = some kid then some (pg, rem) else none

inductive PopResult where
  | noop
  | freshFetch (preserveScroll replaceHistory warned : Bool)
  | applied
deriving DecidableEq

/-- `popState(event)`: nothing happens without an `event.state`; a
decode failure is caught — a warning is logged and a fresh
`axios.get(window.location.href, {preserveScroll: true, replaceHistory:
true})` is issued instead (the remember table and page store are left
untouched); on success the snapshot's entries are merged into the
remember table and the page store is set. -/
def popState (st : ClientState) (eventState : Option StoredState) (currentKey : Option Nat) :
    ClientState × PopResult :=
  match eventState with
  | none => (st, .noop)
  | some s =>
    match resolveState currentKey s with
    | none => (st, .freshFetch true true true)
    | some (pg, rem) =>
      ({ st with remember := assignAll st.remember rem, page := pg }, .applied)

/-- C10: a push-type commit with a non-empty remember table first folds
the departing page together with the table's snapshot into the current
entry, then clears the table and pushes the new entry (conjunct 1);
after any push-type commit the remember table is empty (conjunct 2); a
push with an empty table just pushes (conjunct 3); a replace-type
commit with a non-empty table folds the snapshot into the replaced
entry and leaves the table intact (conjunct 4). -/
theorem push_state_remember_semantics (st : ClientState) (data : PageData) :
    (st.remember ≠ [] →
      pushStateFn st data false =
        { st with
            history := replaceTop st.history (makeEntry st.page st.remember)
              ++ [makeEntry data []],
            remember := [],
            locationHref := data.url }) ∧
    (pushStateFn st data false).remember = [] ∧
    (st.remember = [] →
      pushStateFn st data false =
        { st with history := st.history ++ [makeEntry data []], locationHref := data.url }) ∧
    (st.remember ≠ [] →
      pushStateFn st data true =
        { st with history := replaceTop st.history (makeEntry data st.remember) }) := by
  refine ⟨?_, ?_, ?_, ?_⟩
  · intro h
    have hlen : st.remember.length > 0 := List.length_pos.mpr h
    simp [pushStateFn, hlen, replaceTop]
  · by_cases h : st.remember.length > 0 <;> simp [pushStateFn, h]
  · intro h
    have hlen : ¬st.remember.length > 0 := by simp [h]
    simp [pushStateFn, hlen, h]
  · intro h
    have hlen : st.remember.length > 0 := List.length_pos.mpr h
    simp [pushStateFn, hlen]

def exClient : ClientState :=
  { page := basePage
    history := [makeEntry basePage []]
    locationHref := "/u"
    remember := [("form", .str "draft")]
    dispatched := []
    hardRedirect := none
    renderedError := false
    scrolledTop := false
    sessionKeys := true }

def exPage2 : PageData := { basePage with url := "/next" }

theorem push_state_remember_semantics_witness :
    (exClient.remember ≠ [] ∧
      pushStateFn exClient exPage2 false =
        { exClient with
            history := replaceTop exClient.history (makeEntry exClient.page exClient.remember)
              ++ [makeEntry exPage2 []],
            remember := [],
            locationHref := exPage2.url } ∧
      pushStateFn exClient exPage2 true =
        { exClient with history := replaceTop exClient.history (makeEntry exPage2 exClient.remember) }) :=
  ⟨by decide,
   (push_state_remember_semantics exClient exPage2).1 (by decide),
   (push_state_remember_semantics exClient exPage2).2.2.2 (by decide)⟩

/-- C7: when decoding the retrieved history entry fails (the
session-scoped key the blob was encrypted under is gone), `popState`
does not throw (the model is a total function): it logs a warning and
issues a fresh network navigation to the current URL with
`preserveScroll: true` and `replaceHistory: true`, leaving the remember
table and the page store untouched. -/
theorem popstate_decode_fallback (st : ClientState) (kid : Nat) (pg : PageData)
    (rem : List (String × Json)) (currentKey : Option Nat) (h : currentKey ≠ some kid) :
    popState st (some (.encrypted kid pg rem)) currentKey = (st, .freshFetch true true true) := by
  simp [popState, resolveState, h]

theorem popstate_decode_fallback_witness :
    (none ≠ some 7) ∧
    popState exClient (some (.encrypted 7 basePage [])) none
      = (exClient, .freshFetch true true true) :=
  ⟨by decide, popstate_decode_fallback exClient 7 basePage [] none (by decide)⟩

/-! ## Response reconciliation (inertia extension `core.ts`) -/

/-- The `vortex` navigation options of a call (`VortexConfig`); absent
lists model absent/non-array values, `replaceHistory : Option Bool`
keeps the `undefined` / `false` distinction the source tests with
`!== false`. -/
structure VortexCfg where
  only : Option (List String)
  except : Option (List String)
  reset : Option (List String)
  preserveHistory : Bool
  preserveScroll : Bool
  replaceHistory : Option Bool
deriving DecidableEq

/-- A transport response as the interceptors see it: the effective
config's `prefetch` and `vortex` fields, the `x-inertia` marker and
`x-inertia-location` headers, and the `Page`-shaped body. -/
structure Response where
  prefetch : Bool
  vortex : Option VortexCfg
  inertiaHeader : Bool
  locationHeader : Option String
  data : PageData
deriving DecidableEq

/-- The `replace` object built by the `only` / `except` loops:
`for (const prop of keys) replace[prop] = source[prop]`. -/
def buildReplace (keys : List String) (source : List (String × Json)) :
    List (String × Json) :=
  keys.foldl (fun acc p => setA acc p (getD source p .undef)) []

/-- The partial-reload prop reconciliation of `resolveResponse`: with a
non-empty `only` list, the requested subset of the incoming props is
spread over a copy of the previous page's props
(`{...pageState.props, ...replace}`); with a non-empty `except` list,
the previous values of the excluded keys are then spread over the
result (`{...response.data.props, ...replace}`). -/
def subsetProps (cfg : VortexCfg) (prev incoming : List (String × Json)) :
    List (String × Json) :=
  let props₁ := match cfg.only with
    | some os => if os.length > 0 then assignAll prev (buildReplace os incoming) else incoming
    | none => incoming
  match cfg.except with
  | some es => if es.length > 0 then assignAll props₁ (buildReplace es prev) else props₁
  | none => props₁

/-- `resolveResponse`: prefetch responses, non-vortex calls and
responses without the `x-inertia` marker pass through untouched.
Otherwise the partial-reload merge and `pageMutations` reconcile the
incoming page against the previous one (`none` models the `TypeError`
`pageMutations` can throw); then either the previous URL is kept
(`preserveHistory`) or a history entry is committed via `pushState`
(replace when `replaceHistory` is truthy, or when the URL is unchanged
and `replaceHistory` is not explicitly `false`); the page store is set,
`clearHistory` clears the session encryption keys, deferred prop groups
are dispatched as follow-up reloads, and the scroll position is reset
unless `preserveScroll`. -/
def resolveResponse (st : ClientState) (resp : Response) :
    Option (ClientState × Response) :=
  match resp.vortex with
  | none => some (st, resp)
  | some cfg =>
    if resp.prefetch || !resp.inertiaHeader then some (st, resp)
    else
      let pageState := st.page
      let props₂ := subsetProps cfg pageState.props resp.data.props
      match pageMutations { resp.data with props := props₂ } pageState with
      | none => none
      | some data₂ =>
        let (data₃, st₁) :=
          if cfg.preserveHistory then
            ({ data₂ with url := if pageState.url ≠ "" then pageState.url else data₂.url }, st)
          else
            (data₂, pushStateFn st data₂
              ((cfg.replaceHistory == some true) ||
                ((pageState.url == data₂.url) && (cfg.replaceHistory != some false))))
        let st₂ := { st₁ with page := data₃ }
        let st₃ := if pageState.clearHistory then { st₂ with sessionKeys := false } else st₂
        let st₄ := { st₃ with dispatched := st₃.dispatched ++
          (match data₃.deferredProps with | some groups => groups.map Prod.snd | none => []) }
        let st₅ := if !cfg.preserveScroll then { st₄ with scrolledTop := true } else st₄
        some (st₅, { resp with data := data₃ })

/-- The inputs `resolveResponseError` inspects on an `AxiosError`:
whether the request config opted into vortex behaviour, and the error's
response, if any. -/
structure ErrInput where
  configVortex : Bool
  response : Option Response
deriving DecidableEq

/-- How the error interceptor settles the call's promise. -/
inductive ErrOutcome where
  | reject
  | resolvedWith (r : Response)
deriving DecidableEq

/-- `resolveResponseError`: non-vortex errors reject; an
`x-inertia-location` header performs a hard browser redirect and
resolves with the response; a response without the `x-inertia` marker
is rendered in the error overlay and the error is rejected; a
protocol-tagged error response is passed to `resolveResponse` and that
reconciled response is returned from the interceptor — resolving the
promise (`none` again models a thrown `TypeError` inside
`resolveResponse`). -/
def resolveResponseError (st : ClientState) (err : ErrInput) :
    Option (ClientState × ErrOutcome) :=
  if !err.configVortex then some (st, .reject)
  else
    match err.response with
    | some resp =>
      match resp.locationHeader with
      | some loc => some ({ st with hardRedirect := some loc }, .resolvedWith resp)
      | none =>
        if !resp.inertiaHeader then some ({ st with renderedError := true }, .reject)
        else (resolveResponse st resp).map (fun p => (p.1, .resolvedWith p.2))
    | none => some ({ st with renderedError := true }, .reject)

theorem foldl_setA_getA {α : Type} (keys : List String) (f : String → α) :
    ∀ (acc : List (String × α)) (k : String),
      getA (keys.foldl (fun acc p => setA acc p (f p)) acc) k
        = if k ∈ keys then some (f k) else getA acc k := by
  induction keys with
  | nil => intro acc k; simp
  | cons q rest ih =>
    intro acc k
    rw [List.foldl_cons, ih]
    by_cases hk : k ∈ rest
    · simp [hk]
    · by_cases hq : k = q
      · subst hq
        simp [hk, getA_setA_self]
      · simp [hk, hq, getA_setA_ne _ _ _ _ (fun hh => hq hh.symm)]

theorem buildReplace_getA (keys : List String) (src : List (String × Json)) (k : String) :
    getA (buildReplace keys src) k
      = if k ∈ keys then some (getD src k .undef) else none := by
  rw [buildReplace, foldl_setA_getA]
  simp

theorem setA_map_fst_not_mem {α : Type} (l : List (String × α)) (k : String) (v : α)
    (h : k ∉ l.map Prod.fst) : (setA l k v).map Prod.fst = l.map Prod.fst ++ [k] := by
  induction l with
  | nil => simp [setA]
  | cons p rest ih =>
    obtain ⟨k₀, v₀⟩ := p
    simp only [List.map_cons, List.mem_cons] at h
    push_neg at h
    simp [setA, Ne.symm h.1, ih h.2]

theorem setA_keys_nodup {α : Type} (l : List (String × α)) (k : String) (v : α)
    (h : (l.map Prod.fst).Nodup) : ((setA l k v).map Prod.fst).Nodup := by
  by_cases hm : k ∈ l.map Prod.fst
  · rw [setA_map_fst_mem _ _ _ hm]; exact h
  · rw [setA_map_fst_not_mem _ _ _ hm]
    simp [List.nodup_append, h, hm]

theorem buildReplace_keys_nodup (keys : List String) (src : List (String × Json)) :
    ((buildReplace keys src).map Prod.fst).Nodup := by
  rw [buildReplace]
  have h : ∀ (acc : List (String × Json)), (acc.map Prod.fst).Nodup →
      ((keys.foldl (fun acc p => setA acc p (getD src p .undef)) acc).map Prod.fst).Nodup := by
    induction keys with
    | nil => intro acc hacc; simpa using hacc
    | cons q rest ih =>
      intro acc hacc
      rw [List.foldl_cons]
      exact ih _ (setA_keys_nodup _ _ _ hacc)
  exact h [] (by simp)

theorem buildReplace_mem_keys (keys : List String) (src : List (String × Json)) (k : String) :
    k ∈ (buildReplace keys src).map Prod.fst ↔ k ∈ keys := by
  constructor
  · intro h
    rcases getA_is_some_of_mem _ k h with ⟨v, hv⟩
    rw [buildReplace_getA] at hv
    by_contra hc
    rw [if_neg hc] at hv
    exact Option.noConfusion hv
  · intro h
    have hv : getA (buildReplace keys src) k = some (getD src k .undef) := by
      rw [buildReplace_getA, if_pos h]
    exact List.mem_map.mpr ⟨(k, getD src k .undef), getA_eq_some_mem _ _ _ hv, rfl⟩

theorem getA_assignAll_buildReplace (base : List (String × Json)) (keys : List String)
    (src : List (String × Json)) (k : String) :
    getA (assignAll base (buildReplace keys src)) k
      = if k ∈ keys then some (getD src k .undef) else getA base k := by
  by_cases hm : k ∈ keys
  · rw [getA_assignAll_mem _ _ _ (buildReplace_keys_nodup keys src)
      ((buildReplace_mem_keys keys src k).mpr hm), buildReplace_getA]
    simp [hm]
  · rw [getA_assignAll_not_mem _ _ _ (fun hc => hm ((buildReplace_mem_keys keys src k).mp hc))]
    simp [hm]

theorem subsetProps_preserved (cfg : VortexCfg) (prev incoming : List (String × Json))
    (os : List String) (k : String) (honly : cfg.only = some os) (hos : os ≠ []) :
    (k ∉ os → getD (subsetProps cfg prev incoming) k .undef = getD prev k .undef) ∧
    (∀ es, cfg.except = some es → k ∈ es →
      getD (subsetProps cfg prev incoming) k .undef = getD prev k .undef) := by
  have hlen : os.length > 0 := List.length_pos.mpr hos
  simp only [subsetProps, honly, if_pos hlen]
  constructor
  · intro hk
    have h1 : getA (assignAll prev (buildReplace os incoming)) k = getA prev k := by
      rw [getA_assignAll_buildReplace, if_neg hk]
    rcases hex : cfg.except with _ | es
    · simp only [getD, h1]
    · by_cases hes : es.length > 0
      · simp only [if_pos hes, getD, getA_assignAll_buildReplace]
        by_cases hke : k ∈ es
        · simp [hke, getD]
        · simp only [if_neg hke, if_neg hk]
      · simp only [if_neg hes, getD, h1]
  · intro es hex hke
    have hes : es.length > 0 :=
      List.length_pos.mpr (fun hc => by subst hc; simp at hke)
    rw [hex]
    simp only [if_pos hes, getD, getA_assignAll_buildReplace, if_pos hke]
    simp [getD]

theorem pageMutations_no_flags (pg old : PageData) (h1 : pg.mergeProps = none)
    (h2 : pg.deepMergeProps = none) : pageMutations pg old = some pg := by
  obtain ⟨c, props, url, ver, ch, eh, dp, mp, dmp⟩ := pg
  simp only at h1 h2
  subst h1
  subst h2
  simp [pageMutations]

/-- C4: on a partial reload (non-empty `only` subset, merge flags
absent on the incoming page so that `pageMutations` is the identity),
the incoming subset is merged into a copy of the previous page's props:
every prop key outside the requested subset keeps its previous value in
the reconciled page, and every key of a requested `except` list keeps
the previous value as well (values compared as JS property reads, where
an absent key reads as `undefined`). -/
theorem subset_reload_preserves_previous_props
    (st : ClientState) (resp : Response) (cfg : VortexCfg) (os : List String) (k : String)
    (st' : ClientState) (resp' : Response)
    (hv : resp.vortex = some cfg)
    (hpre : resp.prefetch = false)
    (hin : resp.inertiaHeader = true)
    (honly : cfg.only = some os) (hos : os ≠ [])
    (hmp : resp.data.mergeProps = none)
    (hdmp : resp.data.deepMergeProps = none)
    (hres : resolveResponse st resp = some (st', resp')) :
    (k ∉ os → getD st'.page.props k .undef = getD st.page.props k .undef) ∧
    (∀ es, cfg.except = some es → k ∈ es →
      getD st'.page.props k .undef = getD st.page.props k .undef) := by
  have hprops : st'.page.props = subsetProps cfg st.page.props resp.data.props := by
    have hpm : pageMutations
        { resp.data with props := subsetProps cfg st.page.props resp.data.props } st.page
        = some { resp.data with props := subsetProps cfg st.page.props resp.data.props } :=
      pageMutations_no_flags _ _ hmp hdmp
    simp only [resolveResponse, hv, hpre, hin] at hres
    rw [if_neg (by simp)] at hres
    rw [hpm] at hres
    simp only [] at hres
    injection hres with hres
    have hst := congrArg Prod.fst hres
    simp only [] at hst
    rw [← hst]
    repeat' split
    all_goals simp
  rw [hprops]
  exact subsetProps_preserved cfg st.page.props resp.data.props os k honly hos

def exPrev : PageData := { basePage with props := [("keep", .num 1), ("part", .num 2)] }

def exCfg : VortexCfg :=
  { only := some ["part"], except := none, reset := none,
    preserveHistory := false, preserveScroll := false, replaceHistory := none }

def exIncoming : Response :=
  { prefetch := false
    vortex := some exCfg
    inertiaHeader := true
    locationHeader := none
    data := { basePage with props := [("part", .num 20), ("keep", .num 99)] } }

def exClient2 : ClientState := { exClient with page := exPrev, remember := [] }

def exSt4 : ClientState := ((resolveResponse exClient2 exIncoming).getD (exClient2, exIncoming)).1

def exResp4 : Response := ((resolveResponse exClient2 exIncoming).getD (exClient2, exIncoming)).2

theorem subset_reload_preserves_previous_props_witness :
    (exIncoming.vortex = some exCfg ∧ exIncoming.prefetch = false ∧
      exIncoming.inertiaHeader = true ∧ exCfg.only = some ["part"] ∧
      (["part"] : List String) ≠ [] ∧ exIncoming.data.mergeProps = none ∧
      exIncoming.data.deepMergeProps = none ∧
      resolveResponse exClient2 exIncoming = some (exSt4, exResp4) ∧
      "keep" ∉ (["part"] : List String)) ∧
    getD exSt4.page.props "keep" .undef = getD exClient2.page.props "keep" .undef :=
  ⟨⟨by decide, by decide, by decide, by decide, by decide, by decide, by decide,
    by decide, by decide⟩,
   (subset_reload_preserves_previous_props exClient2 exIncoming exCfg ["part"] "keep"
      exSt4 exResp4 (by decide) (by decide) (by decide) (by decide) (by decide) (by decide)
      (by decide) (by decide)).1 (by decide)⟩

def exErrResp : Response :=
  { prefetch := false
    vortex := some ⟨none, none, none, false, false, none⟩
    inertiaHeader := true
    locationHeader := none
    data := { basePage with props := [("errors", .obj [("name", .str "required")])] } }

def exErr : ErrInput := { configVortex := true, response := some exErrResp }

def exErrSt : ClientState :=
  ((resolveResponse exClient2 exErrResp).getD (exClient2, exErrResp)).1

def exErrResp' : Response :=
  ((resolveResponse exClient2 exErrResp).getD (exClient2, exErrResp)).2

/-- C6 counterexample: a protocol-tagged error response (vortex config,
`x-inertia` header, no redirect header) is *not* rejected by
`resolveResponseError` — the interceptor returns the reconciled
response, so the call's promise resolves; the claim's "the call's
promise is still rejected afterward" is false at this input. -/
theorem error_reconciliation_counterexample :
    exErr.configVortex = true ∧ exErrResp.inertiaHeader = true ∧
    exErrResp.locationHeader = none ∧
    (resolveResponseError exClient2 exErr).map (fun p => p.2) ≠ some ErrOutcome.reject ∧
    (resolveResponseError exClient2 exErr).map (fun p => p.2)
      = some (ErrOutcome.resolvedWith exErrResp') := by
  refine ⟨by decide, by decide, by decide, by decide, by decide⟩

/-- C6 amended: when a pipeline request fails with an error response
carrying the protocol marker header and no redirect header, the error
response is run through the same page-state reconciliation as a success
response, and the interceptor returns the reconciled response — the
call's promise *resolves* with it (caller-side `.catch` handlers do not
observe a rejection); only non-protocol error responses and non-vortex
calls reject. -/
theorem error_reconciliation_amended (st : ClientState) (err : ErrInput) (resp : Response)
    (h1 : err.configVortex = true)
    (h2 : err.response = some resp)
    (h3 : resp.locationHeader = none)
    (h4 : resp.inertiaHeader = true) :
    resolveResponseError st err
      = (resolveResponse st resp).map (fun p => (p.1, ErrOutcome.resolvedWith p.2)) := by
  simp [resolveResponseError, h1, h2, h3, h4]

theorem error_reconciliation_amended_witness :
    (exErr.configVortex = true ∧ exErr.response = some exErrResp ∧
      exErrResp.locationHeader = none ∧ exErrResp.inertiaHeader = true) ∧
    resolveResponseError exClient2 exErr
      = (resolveResponse exClient2 exErrResp).map (fun p => (p.1, ErrOutcome.resolvedWith p.2)) :=
  ⟨⟨by decide, by decide, by decide, by decide⟩,
   error_reconciliation_amended exClient2 exErr exErrResp (by decide) (by decide)
     (by decide) (by decide)⟩

/-! ## Prefetch cache (`src/prefetch.ts`)

A cache entry stores `{ttl, stale, timestamp, response}`.  `handleRequest`
decides how a *normal* (non-prefetch) request with the same cache key is
served:

```js
if (!cached) return toResponse(adapter(config))
const age = timestamp - cached.timestamp;
if (cached.ttl && age < cached.ttl) return toResponse(cached.response)
cache.delete(key)
if (cached.stale && age < cached.stale) {
    axios.request(config)
    return toResponse(cached.response)
}
return toResponse(adapter(config))
```

Times are integer milliseconds (`Date.now()`); `cached.ttl &&` and
`cached.stale &&` are JS truthiness tests, so a zero `ttl` or `stale`
behaves like an absent one.  The outcome records whether the cached
promise was served, whether the adapter performed a genuine network
call, whether a detached background revalidation was dispatched, and
whether the entry was evicted. -/

structure CacheEntry where
  ttl : Int
  stale : Option Int
  timestamp : Int
deriving DecidableEq

structure ReqOutcome where
  servedFromCache : Bool
  networkCall : Bool
  revalidate : Bool
  evicted : Bool
deriving DecidableEq

def handleRequest (cached : Option CacheEntry) (now : Int) : ReqOutcome :=
  match cached with
  | none => ⟨false, true, false, false⟩
  | some c =>
    let age := now - c.timestamp
    if c.ttl ≠ 0 ∧ age < c.ttl then ⟨true, false, false, false⟩
    else
      match c.stale with
      | some stv =>
        if stv ≠ 0 ∧ age < stv then ⟨true, false, true, true⟩ else ⟨false, true, false, true⟩
      | none => ⟨false, true, false, true⟩

/-- C5 counterexample: an entry with `ttl = 1000`, `stale = 5000`,
created at time `0` and queried at age `5500` satisfies the claim's
stale-but-usable window `ttl ≤ age < ttl + staleWindow` (`1000 ≤ 5500 <
6000`), yet the code performs a genuine network call and serves nothing
from the cache — the `stale` bound is measured from the entry's
creation, not added to `ttl`. -/
theorem prefetch_window_counterexample :
    (1000 : Int) ≤ 5500 ∧ (5500 : Int) < 1000 + 5000 ∧
    handleRequest (some ⟨1000, some 5000, 0⟩) 5500 = ⟨false, true, false, true⟩ := by
  refine ⟨by norm_num, by norm_num, by decide⟩

/-- C5 amended: a normal request with the same cache key is served from
the cached promise without a network call while `age < ttl` (conjunct
1); once `age ≥ ttl` (or `ttl` is 0) the entry is evicted, and while
`ttl ≤ age < staleWindow` — the stale window being an absolute bound
from the entry's creation, not `ttl + staleWindow` — the cached value
is served once more and a background revalidation request is dispatched
(conjunct 2); otherwise a genuine network call is performed (conjunct
3); conjunct 4 checks the spec's concrete instances (`ttl = 1000`:
age 500 serves the cache; age 1500 without a stale window evicts and
refetches; age 1500 with `stale = 5000` serves the stale value while
revalidating in the background). -/
theorem prefetch_freshness_amended :
    (∀ (c : CacheEntry) (now : Int), c.ttl ≠ 0 → now - c.timestamp < c.ttl →
        handleRequest (some c) now = ⟨true, false, false, false⟩) ∧
    (∀ (c : CacheEntry) (now : Int) (stv : Int),
        ¬(c.ttl ≠ 0 ∧ now - c.timestamp < c.ttl) →
        c.stale = some stv → stv ≠ 0 → now - c.timestamp < stv →
        handleRequest (some c) now = ⟨true, false, true, true⟩) ∧
    (∀ (c : CacheEntry) (now : Int),
        ¬(c.ttl ≠ 0 ∧ now - c.timestamp < c.ttl) →
        (match c.stale with
         | none => True
         | some stv => stv = 0 ∨ stv ≤ now - c.timestamp) →
        handleRequest (some c) now = ⟨false, true, false, true⟩) ∧
    (handleRequest (some ⟨1000, none, 0⟩) 500 = ⟨true, false, false, false⟩ ∧
      handleRequest (some ⟨1000, none, 0⟩) 1500 = ⟨false, true, false, true⟩ ∧
      handleRequest (some ⟨1000, some 5000, 0⟩) 1500 = ⟨true, false, true, true⟩) := by
  refine ⟨?_, ?_, ?_, by decide, by decide, by decide⟩
  · intro c now h1 h2
    simp [handleRequest, h1, h2]
  · intro c now stv hfresh hstale h1 h2
    simp [handleRequest, hfresh, hstale, h1, h2]
  · intro c now hfresh hstale
    rcases hs : c.stale with _ | stv
    · simp [handleRequest, hfresh, hs]
    · rw [hs] at hstale
      have h : ¬(stv ≠ 0 ∧ now - c.timestamp < stv) := by
        rcases hstale with h | h
        · simp [h]
        · intro hc
          omega
      simp [handleRequest, hfresh, hs, h]

theorem prefetch_freshness_amended_witness :
    (((⟨1000, none, 0⟩ : CacheEntry).ttl ≠ 0 ∧ (500 : Int) - 0 < 1000) ∧
      handleRequest (some ⟨1000, none, 0⟩) 500 = ⟨true, false, false, false⟩) ∧
    ((¬((⟨1000, some 5000, 0⟩ : CacheEntry).ttl ≠ 0 ∧ (1500 : Int) - 0 < 1000) ∧
        (⟨1000, some 5000, 0⟩ : CacheEntry).stale = some 5000 ∧ (5000 : Int) ≠ 0 ∧
        (1500 : Int) - 0 < 5000) ∧
      handleRequest (some ⟨1000, some 5000, 0⟩) 1500 = ⟨true, false, true, true⟩) :=
  ⟨⟨by decide, prefetch_freshness_amended.1 ⟨1000, none, 0⟩ 500 (by decide) (by decide)⟩,
   ⟨by decide, prefetch_freshness_amended.2.1 ⟨1000, some 5000, 0⟩ 1500 5000 (by decide)
     (by decide) (by decide) (by decide)⟩⟩

end Vortex
